import Mathlib

/-!
Verification of the object model of a small content-addressable object
store (a git plumbing clone written in Go).  Byte buffers are modelled as
lists of natural numbers (one per byte), Go functions become Lean
functions, and the three ways a Go call can end (a value, a returned
non-nil error, a runtime panic from an out-of-range slice index) become
the three constructors of GoResult.  Slicing a byte slice beyond its
length is modelled as a panic: Go panics whenever the bound exceeds the
capacity, and when the capacity happens to exceed the length the bytes
read are unspecified stale storage, never part of the logical buffer.
-/

set_option maxRecDepth 10000

namespace MyGit

/-- Bytes of an ASCII string literal, as natural numbers. -/
def strBytes (s : String) : List Nat := s.data.map Char.toNat

/-- Error sites of the source, named after the failure they report.  The
specification taxonomy maps openFile to ObjectNotFound, zlibRead to
CorruptStorage, sizeParse to MalformedObject and the two tree-line
errors to MalformedTreeEntry. -/
inductive GitError where
  | openFile
  | zlibRead
  | sizeParse
  | treeLineInvalid
  | modeParse
deriving DecidableEq, Repr

/-- Outcome of a Go function call: a normal value, a returned non-nil
error, or a runtime panic (out-of-range slice index and the like). -/
inductive GoResult (α : Type) where
  | ok (val : α)
  | err (e : GitError)
  | panicked
deriving DecidableEq, Repr

/-- True exactly on the ok constructor. -/
def GoResult.isOk {α : Type} : GoResult α → Bool
  | .ok _ => true
  | _ => false

/-- True exactly on the err constructor. -/
def GoResult.isErr {α : Type} : GoResult α → Bool
  | .err _ => true
  | _ => false

/-- Model of slices.Index on a byte slice: the index of the first
occurrence of b, with the Go result -1 rendered as none. -/
def goIndex : List Nat → Nat → Option Nat
  | [], _ => none
  | x :: xs, b => if x = b then some 0 else (goIndex xs b).map (fun i => i + 1)

/-- Decimal digit value of a byte, none when the byte is not 0-9. -/
def digitVal (b : Nat) : Option Nat :=
  if 48 ≤ b ∧ b ≤ 57 then some (b - 48) else none

/-- Accumulating decimal parse of a digit string. -/
def parseDigitsAux (acc : Nat) : List Nat → Option Nat
  | [] => some acc
  | b :: bs =>
    match digitVal b with
    | none => none
    | some d => parseDigitsAux (acc * 10 + d) bs

/-- Model of strconv.Atoi: an optional sign followed by a non-empty run
of decimal digits; anything else fails.  The machine-integer range check
is omitted, every size in scope being far below it. -/
def atoi (bs : List Nat) : Option Int :=
  match bs with
  | [] => none
  | b :: rest =>
    if b = 45 then
      if rest = [] then none else (parseDigitsAux 0 rest).map (fun n => -(n : Int))
    else if b = 43 then
      if rest = [] then none else (parseDigitsAux 0 rest).map (fun n => (n : Int))
    else
      (parseDigitsAux 0 (b :: rest)).map (fun n => (n : Int))

/-- Big-endian decimal digit bytes of n, fuel-bounded so that the
definition is structural (model of strconv.Itoa and of the %d verb for
the non-negative values in scope). -/
def itoaCore : Nat → Nat → List Nat
  | 0, _ => []
  | fuel + 1, n => if n < 10 then [48 + n] else itoaCore fuel (n / 10) ++ [48 + n % 10]

/-- Decimal digit bytes of n; fuel n + 1 always suffices. -/
def itoa (n : Nat) : List Nat := itoaCore (n + 1) n

/-- The power of ten matched by the digits itoaCore emits, used to state
the decode-of-encode round trip. -/
def tenShift : Nat → Nat → Nat
  | 0, _ => 1
  | fuel + 1, n => if n < 10 then 10 else 10 * tenShift fuel (n / 10)

/-- The blob type tag. -/
def TypeBlob : List Nat := strBytes ("blob")

/-- The tree type tag. -/
def TypeTree : List Nat := strBytes ("tree")

/-- The object header written by both writers, from
fmt.Sprintf with the %s %d verbs and a trailing NUL:
type tag, one space, decimal payload size, one NUL. -/
def encodeHeader (kind : List Nat) (n : Nat) : List Nat :=
  kind ++ 32 :: (itoa n ++ [0])

/-- Model of parseType: the type tag is data up to the first space and
the index of that space is returned.  When no space exists slices.Index
yields -1 and the Go slice expression panics. -/
def parseType (data : List Nat) : GoResult (List Nat × Nat) :=
  match goIndex data 32 with
  | none => .panicked
  | some i => .ok (data.take i, i)

/-- Model of parseSize: the decimal size sits between startIdx and the
first NUL at or after it, parsed with strconv.Atoi.  When no NUL exists
the end index becomes startIdx - 1 and the Go slice expression with a
low bound above its high bound panics. -/
def parseSize (data : List Nat) (startIdx : Nat) : GoResult (Int × Nat) :=
  match goIndex (data.drop startIdx) 0 with
  | none => .panicked
  | some i =>
    match atoi ((data.drop startIdx).take i) with
    | none => .err .sizeParse
    | some n => .ok (n, startIdx + i)

/-- The decoded object: type tag, declared size, payload bytes. -/
structure Object where
  type : List Nat
  size : Int
  content : List Nat
deriving DecidableEq, Repr

/-- The in-memory decoding tail of parseObject, applied to the
decompressed bytes: parseType, then parseSize starting one past the
space, then everything after the NUL as content. -/
def decodeObjectData (data : List Nat) : GoResult Object :=
  match parseType data with
  | .panicked => .panicked
  | .err e => .err e
  | .ok tpair =>
    match parseSize data (tpair.2 + 1) with
    | .panicked => .panicked
    | .err e => .err e
    | .ok spair => .ok ⟨tpair.1, spair.1, data.drop (spair.2 + 1)⟩

/-- Model of getObjectDir: filepath.Join of the storage root with the
first two characters of the hex hash. -/
def getObjectDir (hash : String) : String :=
  ".git/objects/" ++ String.mk (hash.data.take 2)

/-- Model of getObjectPath: the shard directory joined with the
remaining characters of the hex hash. -/
def getObjectPath (hash : String) : String :=
  getObjectDir hash ++ "/" ++ String.mk (hash.data.drop 2)

/-- Model of parseObject.  The filesystem is a map from paths to raw
file bytes; zlib inflation is an abstract partial function because the
compress library is outside the repository.  os.Open failing on an
absent path is the openFile error; a bad compressed stream is the
zlibRead error; the rest is decodeObjectData.  The function only reads
the store: it returns a result and leaves the map untouched. -/
def parseObject (inflate : List Nat → Option (List Nat))
    (fs : String → Option (List Nat)) (hash : String) : GoResult Object :=
  match fs (getObjectPath hash) with
  | none => .err .openFile
  | some raw =>
    match inflate raw with
    | none => .err .zlibRead
    | some data => decodeObjectData data

/-- Model of bytes.Split on a one-byte separator: the parts between
every occurrence of the separator, never empty as a list of parts. -/
def splitOnByte (sep : Nat) : List Nat → List (List Nat)
  | [] => [[]]
  | b :: bs =>
    if b = sep then [] :: splitOnByte sep bs
    else
      match splitOnByte sep bs with
      | [] => [[b]]
      | p :: ps => (b :: p) :: ps

/-- Model of parseModeName: bytes.Split on a space must give exactly two
parts; the mode is parsed by strconv.Atoi whose error escapes through
the named return value, so a non-numeric mode is also an error. -/
def parseModeName (line : List Nat) : GoResult (Int × List Nat) :=
  match splitOnByte 32 line with
  | [m, n] =>
    match atoi m with
    | none => .err .modeParse
    | some v => .ok (v, n)
  | _ => .err .treeLineInvalid

/-- One decoded tree entry; the Go struct stores the mode as an int and
the name as a string, rendered here as bytes. -/
structure TreeObjectLine where
  mode : Int
  name : List Nat
  hash : List Nat
deriving DecidableEq, Repr

/-- The loop of decodeTreeObjectContent.  Each pass finds the next NUL
(panicking when none exists, as the Go slice with index -1 does), parses
mode and name before it, slices the twenty hash bytes after it
(panicking when fewer than twenty remain), appends the entry, then
either stops when fewer than twenty-two bytes sit at or past the NUL or
re-slices twenty-two bytes past the NUL and repeats.  The fuel only
bounds the recursion; each pass consumes at least twenty-two bytes, so
fuel one above the byte count never runs out. -/
def decodeTreeLoop : Nat → List Nat → List TreeObjectLine → GoResult (List TreeObjectLine)
  | 0, _, _ => .panicked
  | fuel + 1, contentPart, acc =>
    match goIndex contentPart 0 with
    | none => .panicked
    | some nullByteIdx =>
      match parseModeName (contentPart.take nullByteIdx) with
      | .panicked => .panicked
      | .err e => .err e
      | .ok mn =>
        if nullByteIdx + 21 ≤ contentPart.length then
          if contentPart.length < nullByteIdx + 22 then
            .ok (acc ++ [⟨mn.1, mn.2, (contentPart.drop (nullByteIdx + 1)).take 20⟩])
          else
            decodeTreeLoop fuel (contentPart.drop (nullByteIdx + 22))
              (acc ++ [⟨mn.1, mn.2, (contentPart.drop (nullByteIdx + 1)).take 20⟩])
        else .panicked

/-- The entry-collecting part of decodeTreeObjectContent. -/
def decodeTreeEntries (content : List Nat) : GoResult (List TreeObjectLine) :=
  decodeTreeLoop (content.length + 1) content []

/-- Model of decodeTreeObjectContent: collect the entries, then print
one name per line. -/
def decodeTreeObjectContent (content : List Nat) : GoResult (List Nat) :=
  match decodeTreeEntries content with
  | .ok lines => .ok (lines.foldl (fun out l => out ++ l.name ++ [10]) [])
  | .err e => .err e
  | .panicked => .panicked

/-- Truncation to a 32-bit word. -/
def w32 (n : Nat) : Nat := n % 4294967296

/-- Left rotation of a 32-bit word. -/
def rotl32 (x n : Nat) : Nat := ((x <<< n) ||| (x >>> (32 - n))) % 4294967296

/-- Big-endian bytes of a 32-bit word. -/
def beBytes32 (w : Nat) : List Nat :=
  [w >>> 24 % 256, w >>> 16 % 256, w >>> 8 % 256, w % 256]

/-- Big-endian bytes of a 64-bit word. -/
def beBytes64 (n : Nat) : List Nat :=
  [n >>> 56 % 256, n >>> 48 % 256, n >>> 40 % 256, n >>> 32 % 256,
   n >>> 24 % 256, n >>> 16 % 256, n >>> 8 % 256, n % 256]

/-- SHA-1 padding: the 0x80 byte, zeros to eight bytes short of a
64-byte boundary, then the bit length as a 64-bit big-endian word. -/
def sha1Pad (msg : List Nat) : List Nat :=
  msg ++ 128 :: (List.replicate ((64 - (msg.length + 9) % 64) % 64) 0 ++ beBytes64 (8 * msg.length))

/-- Big-endian 32-bit words of a byte list. -/
def bytesToWords : List Nat → List Nat
  | a :: b :: c :: d :: rest => (((a * 256 + b) * 256 + c) * 256 + d) :: bytesToWords rest
  | _ => []

/-- SHA-1 message-schedule extension, keeping the words most recent
first so that the four taps sit at fixed offsets. -/
def sha1ExtendRev : Nat → List Nat → List Nat
  | 0, ws => ws
  | fuel + 1, ws =>
    sha1ExtendRev fuel
      (rotl32 ((ws.getD 2 0 ^^^ ws.getD 7 0) ^^^ (ws.getD 13 0 ^^^ ws.getD 15 0)) 1 :: ws)

/-- SHA-1 round function. -/
def sha1F (i b c d : Nat) : Nat :=
  if i < 20 then (b &&& c) ||| ((b ^^^ 4294967295) &&& d)
  else if i < 40 then (b ^^^ c) ^^^ d
  else if i < 60 then ((b &&& c) ||| (b &&& d)) ||| (c &&& d)
  else (b ^^^ c) ^^^ d

/-- SHA-1 round constants. -/
def sha1K (i : Nat) : Nat :=
  if i < 20 then 1518500249
  else if i < 40 then 1859775393
  else if i < 60 then 2400959708
  else 3395469782

/-- The eighty SHA-1 compression rounds over the scheduled words. -/
def sha1Rounds : Nat → List Nat → Nat × Nat × Nat × Nat × Nat → Nat × Nat × Nat × Nat × Nat
  | _, [], st => st
  | i, word :: ws, (a, b, c, d, e) =>
    sha1Rounds (i + 1) ws
      (w32 (rotl32 a 5 + sha1F i b c d + e + sha1K i + word), a, rotl32 b 30, c, d)

/-- One SHA-1 block step: schedule the sixteen words out to eighty, run
the rounds, add the result into the chaining state. -/
def sha1Block (h : Nat × Nat × Nat × Nat × Nat) (block : List Nat) : Nat × Nat × Nat × Nat × Nat :=
  match h with
  | (h0, h1, h2, h3, h4) =>
    match sha1Rounds 0 (sha1ExtendRev 64 (bytesToWords block).reverse).reverse (h0, h1, h2, h3, h4) with
    | (a, b, c, d, e) => (w32 (h0 + a), w32 (h1 + b), w32 (h2 + c), w32 (h3 + d), w32 (h4 + e))

/-- Fold the block step over successive 64-byte chunks. -/
def sha1Chunks : Nat → Nat × Nat × Nat × Nat × Nat → List Nat → Nat × Nat × Nat × Nat × Nat
  | 0, h, _ => h
  | fuel + 1, h, msg => sha1Chunks fuel (sha1Block h (msg.take 64)) (msg.drop 64)

/-- SHA-1 digest of a byte list, as twenty bytes. -/
def sha1 (msg : List Nat) : List Nat :=
  match sha1Chunks ((sha1Pad msg).length / 64)
      (1732584193, 4023233417, 2562383102, 271733878, 3285377520) (sha1Pad msg) with
  | (h0, h1, h2, h3, h4) =>
    beBytes32 h0 ++ beBytes32 h1 ++ beBytes32 h2 ++ beBytes32 h3 ++ beBytes32 h4

/-- Lowercase hex digit byte of a value below sixteen. -/
def hexDigit (n : Nat) : Nat := if n < 10 then 48 + n else 87 + n

/-- Model of hex.EncodeToString, as bytes. -/
def hexEncode : List Nat → List Nat
  | [] => []
  | b :: bs => hexDigit (b / 16) :: hexDigit (b % 16) :: hexEncode bs

/-- Model of calculateObjectBytesHash: the SHA-1 digest of the encoded
object bytes. -/
def calculateObjectBytesHash (data : List Nat) : List Nat := sha1 data

/-- The bytes writeBlobObject hashes and stores for a file with the
given contents: the blob header followed by the contents. -/
def writeBlobEncoded (content : List Nat) : List Nat :=
  encodeHeader TypeBlob content.length ++ content

/-- The raw hash writeBlobObject returns for a file with the given
contents. -/
def writeBlobObjectHash (content : List Nat) : List Nat :=
  calculateObjectBytesHash (writeBlobEncoded content)

/-- Big-endian octal digit bytes, fuel-bounded (model of the %o verb). -/
def octalCore : Nat → Nat → List Nat
  | 0, _ => []
  | fuel + 1, n => if n < 8 then [48 + n] else octalCore fuel (n / 8) ++ [48 + n % 8]

/-- Octal digit bytes of n; fuel n + 1 always suffices. -/
def octalItoa (n : Nat) : List Nat := octalCore (n + 1) n

/-- One directory entry as os.ReadDir reports it to writeTreeObject: a
regular file carries its name, permission bits and contents; a
subdirectory carries its name and the raw hash the recursive
writeTreeObject call on it returned.  The model treats one call frame at
a time, the recursion being ordinary and the claims in scope concerning
a single frame. -/
inductive DirEntry where
  | file (name : List Nat) (perm : Nat) (content : List Nat)
  | subdir (name : List Nat) (childHash : List Nat)
deriving DecidableEq, Repr

/-- The listing name of an entry. -/
def entryName : DirEntry → List Nat
  | .file n _ _ => n
  | .subdir n _ => n

/-- The lineBytes writeTreeObject builds for one entry: for a
subdirectory the literal 40000 mode, for a regular file the octal
rendering of the regular-file type bit joined with the permission bits;
then a space, the name, a NUL and the twenty raw hash bytes. -/
def entryLine : DirEntry → List Nat
  | .file n perm c =>
    octalItoa (0o100000 ||| (perm &&& 0o777)) ++ 32 :: (n ++ 0 :: writeBlobObjectHash c)
  | .subdir n h => strBytes ("40000") ++ 32 :: (n ++ 0 :: h)

/-- The (name, lineBytes) pairs writeTreeObject accumulates in listing
order, skipping the storage root directory itself. -/
def treeLines (es : List DirEntry) : List (List Nat × List Nat) :=
  (es.filter (fun e => entryName e ≠ strBytes (".git"))).map
    (fun e => (entryName e, entryLine e))

/-- The totalSize accumulator of writeTreeObject: the summed lineBytes
lengths over the included entries, in listing order. -/
def totalSize (es : List DirEntry) : Nat :=
  ((treeLines es).map (fun l => l.2.length)).sum

/-- Model of the Go string comparison a less than b, byte-wise
lexicographic with a proper prefix smaller. -/
def goStrLt : List Nat → List Nat → Bool
  | _, [] => false
  | [], _ :: _ => true
  | a :: as, b :: bs => if a < b then true else if b < a then false else goStrLt as bs

/-- The ordering sort.Slice establishes from its less function: an
earlier entry is never greater, names compared byte-wise. -/
def nameLe (a b : List Nat × List Nat) : Prop := goStrLt b.1 a.1 = false

instance nameLeDecidable : DecidableRel nameLe :=
  fun a b => inferInstanceAs (Decidable (goStrLt b.1 a.1 = false))

/-- Model of the sort.Slice call: the entries rearranged into ascending
name order.  Directory listings carry distinct names, so every
comparison sort produces this same list; insertion sort stands in for
the library sort. -/
def sortLines (ls : List (List Nat × List Nat)) : List (List Nat × List Nat) :=
  List.insertionSort nameLe ls

/-- Concatenation of byte lists, as the append loop does. -/
def concatBytes : List (List Nat) → List Nat
  | [] => []
  | l :: ls => l ++ concatBytes ls

/-- The tree payload: the sorted entries joined. -/
def treePayload (es : List DirEntry) : List Nat :=
  concatBytes ((sortLines (treeLines es)).map (fun l => l.2))

/-- The bytes writeTreeObject hashes and stores for one directory
frame: the tree header declaring totalSize, then the payload. -/
def writeTreeObjectEncoded (es : List DirEntry) : List Nat :=
  encodeHeader TypeTree (totalSize es) ++ treePayload es

/-- goIndex misses a byte that is not in the list. -/
theorem goIndex_eq_none (b : Nat) : ∀ l : List Nat, b ∉ l → goIndex l b = none := by
  intro l
  induction l with
  | nil => intro _; rfl
  | cons x xs ih =>
    intro h
    simp only [List.mem_cons, not_or] at h
    simp [goIndex, Ne.symm h.1, ih h.2]

/-- goIndex finds the first occurrence right after a clean prefix. -/
theorem goIndex_append (b : Nat) (r : List Nat) :
    ∀ t : List Nat, b ∉ t → goIndex (t ++ b :: r) b = some t.length := by
  intro t
  induction t with
  | nil => intro _; simp [goIndex]
  | cons x xs ih =>
    intro h
    simp only [List.mem_cons, not_or] at h
    simp [goIndex, Ne.symm h.1, ih h.2]

/-- Every byte itoaCore emits is a decimal digit byte. -/
theorem itoaCore_digits : ∀ fuel n d : Nat, d ∈ itoaCore fuel n → 48 ≤ d ∧ d ≤ 57 := by
  intro fuel
  induction fuel with
  | zero => intro n d h; simp [itoaCore] at h
  | succ f ih =>
    intro n d h
    by_cases hn : n < 10
    · simp [itoaCore, hn] at h
      omega
    · simp only [itoaCore, if_neg hn, List.mem_append, List.mem_singleton] at h
      rcases h with h | h
      · exact ih (n / 10) d h
      · have : n % 10 < 10 := Nat.mod_lt n (by omega)
        omega

/-- itoaCore with positive fuel emits at least one byte. -/
theorem itoaCore_ne_nil (fuel n : Nat) : itoaCore (fuel + 1) n ≠ [] := by
  by_cases hn : n < 10
  · simp [itoaCore, hn]
  · simp [itoaCore, hn]

/-- parseDigitsAux consumes an append in two stages. -/
theorem parseDigitsAux_append (ys : List Nat) :
    ∀ xs : List Nat, ∀ acc : Nat,
      parseDigitsAux acc (xs ++ ys) = (parseDigitsAux acc xs).bind (fun a => parseDigitsAux a ys) := by
  intro xs
  induction xs with
  | nil => intro acc; rfl
  | cons x xs ih =>
    intro acc
    simp only [List.cons_append, parseDigitsAux]
    cases digitVal x with
    | none => rfl
    | some d => exact ih (acc * 10 + d)

/-- A digit byte decodes to its value. -/
theorem digitVal_of_lt (n : Nat) (h : n < 10) : digitVal (48 + n) = some n := by
  unfold digitVal
  rw [if_pos (by omega)]
  congr 1
  omega

/-- Parsing the digits itoaCore emits recovers the value, shifted into
the accumulator by the matching power of ten. -/
theorem parseDigitsAux_itoaCore :
    ∀ fuel n acc : Nat, n < 10 ^ fuel →
      parseDigitsAux acc (itoaCore fuel n) = some (acc * tenShift fuel n + n) := by
  intro fuel
  induction fuel with
  | zero =>
    intro n acc h
    simp only [pow_zero, Nat.lt_one_iff] at h
    subst h
    simp [itoaCore, parseDigitsAux, tenShift]
  | succ f ih =>
    intro n acc h
    by_cases hn : n < 10
    · rw [itoaCore, if_pos hn, tenShift, if_pos hn]
      simp [parseDigitsAux, digitVal_of_lt n hn]
    · have hdiv : n / 10 < 10 ^ f := by
        apply Nat.div_lt_of_lt_mul
        calc n < 10 ^ (f + 1) := h
          _ = 10 * 10 ^ f := by ring
      have h10 : n % 10 < 10 := Nat.mod_lt n (by omega)
      rw [itoaCore, if_neg hn, parseDigitsAux_append, ih (n / 10) acc hdiv]
      rw [tenShift, if_neg hn]
      simp only [Option.some_bind, parseDigitsAux, digitVal_of_lt (n % 10) h10]
      congr 1
      have hA : acc * (10 * tenShift f (n / 10)) = acc * tenShift f (n / 10) * 10 := by ring
      rw [hA]
      generalize acc * tenShift f (n / 10) = A
      omega

/-- Round trip of the size field: Atoi of Itoa. -/
theorem atoi_itoa (n : Nat) : atoi (itoa n) = some (n : Int) := by
  have hlt : n < 10 ^ (n + 1) := by
    calc n < 10 ^ n := Nat.lt_pow_self (by norm_num) n
      _ ≤ 10 ^ (n + 1) := Nat.pow_le_pow_right (by norm_num) (Nat.le_succ n)
  obtain ⟨b, rest, he⟩ := List.exists_cons_of_ne_nil (itoaCore_ne_nil n n)
  have hb : 48 ≤ b ∧ b ≤ 57 := itoaCore_digits (n + 1) n b (by rw [he]; exact List.mem_cons_self b rest)
  have hparse : parseDigitsAux 0 (itoa n) = some n := by
    rw [itoa, parseDigitsAux_itoaCore (n + 1) n 0 hlt, Nat.zero_mul, Nat.zero_add]
  rw [itoa] at hparse ⊢
  rw [he] at hparse ⊢
  simp only [atoi, if_neg (show ¬ b = 45 by omega), if_neg (show ¬ b = 43 by omega), hparse,
    Option.map_some]
  rfl

/-- itoa never emits a NUL byte. -/
theorem itoa_not_mem_zero (n : Nat) : 0 ∉ itoa n := by
  intro h
  have := itoaCore_digits (n + 1) n 0 h
  omega

/-- Decoding an encoded header recovers the type tag, the declared size
and the following payload unchanged, for every declared size and every
payload, the payload free to contain spaces and NUL bytes. -/
theorem decodeObjectData_encodeHeader (t : List Nat) (ht : 32 ∉ t) (n : Nat) (p : List Nat) :
    decodeObjectData (encodeHeader t n ++ p) = .ok ⟨t, (n : Int), p⟩ := by
  have hshape : encodeHeader t n ++ p = t ++ 32 :: (itoa n ++ 0 :: p) := by
    simp [encodeHeader, List.append_assoc]
  have hidx : goIndex (encodeHeader t n ++ p) 32 = some t.length := by
    rw [hshape]
    exact goIndex_append 32 (itoa n ++ 0 :: p) t ht
  have htake : (encodeHeader t n ++ p).take t.length = t := by
    rw [hshape]
    exact List.take_left t (32 :: (itoa n ++ 0 :: p))
  have hpt : parseType (encodeHeader t n ++ p) = .ok (t, t.length) := by
    simp only [parseType, hidx, htake]
  have hdrop : (encodeHeader t n ++ p).drop (t.length + 1) = itoa n ++ 0 :: p := by
    rw [hshape]
    have hsplit : t ++ 32 :: (itoa n ++ 0 :: p) = (t ++ [32]) ++ (itoa n ++ 0 :: p) := by
      simp [List.append_assoc]
    rw [hsplit]
    exact List.drop_left' (by simp)
  have hidx2 : goIndex ((encodeHeader t n ++ p).drop (t.length + 1)) 0 = some (itoa n).length := by
    rw [hdrop]
    exact goIndex_append 0 p (itoa n) (itoa_not_mem_zero n)
  have htake2 : ((encodeHeader t n ++ p).drop (t.length + 1)).take (itoa n).length = itoa n := by
    rw [hdrop]
    exact List.take_left (itoa n) (0 :: p)
  have hps : parseSize (encodeHeader t n ++ p) (t.length + 1) =
      .ok ((n : Int), t.length + 1 + (itoa n).length) := by
    simp only [parseSize, hidx2, htake2, atoi_itoa]
  have hcontent : (encodeHeader t n ++ p).drop (t.length + 1 + (itoa n).length + 1) = p := by
    exact List.drop_left' (by simp [encodeHeader]; omega)
  simp only [decodeObjectData, hpt, hps, hcontent]

/-- A list free of the separator splits to itself alone. -/
theorem splitOnByte_not_mem (sep : Nat) : ∀ l : List Nat, sep ∉ l → splitOnByte sep l = [l] := by
  intro l
  induction l with
  | nil => intro _; rfl
  | cons x xs ih =>
    intro h
    simp only [List.mem_cons, not_or] at h
    rw [splitOnByte, if_neg (Ne.symm h.1), ih h.2]

/-- Splitting past a clean prefix peels that prefix off as the first
part. -/
theorem splitOnByte_append (sep : Nat) (r : List Nat) :
    ∀ t : List Nat, sep ∉ t → splitOnByte sep (t ++ sep :: r) = t :: splitOnByte sep r := by
  intro t
  induction t with
  | nil => simp [splitOnByte]
  | cons x xs ih =>
    intro h
    simp only [List.mem_cons, not_or] at h
    rw [List.cons_append, splitOnByte, if_neg (Ne.symm h.1), ih h.2]

/-- parseModeName accepts a line with one space, numeric before it. -/
theorem parseModeName_ok (m nm : List Nat) (hm : 32 ∉ m) (hn : 32 ∉ nm)
    (v : Int) (hv : atoi m = some v) :
    parseModeName (m ++ 32 :: nm) = .ok (v, nm) := by
  have hsplit : splitOnByte 32 (m ++ 32 :: nm) = [m, nm] := by
    rw [splitOnByte_append 32 nm m hm, splitOnByte_not_mem 32 nm hn]
  simp only [parseModeName, hsplit, hv]

/-- Unfolding of goStrLt on two cons cells. -/
theorem goStrLt_cons (x y : Nat) (xs ys : List Nat) :
    goStrLt (x :: xs) (y :: ys) =
      if x < y then true else if y < x then false else goStrLt xs ys := rfl

/-- Byte-wise strict comparison is asymmetric. -/
theorem goStrLt_asymm : ∀ a b : List Nat, goStrLt a b = true → goStrLt b a = false := by
  intro a
  induction a with
  | nil =>
    intro b h
    cases b with
    | nil => simp [goStrLt] at h
    | cons y ys => rfl
  | cons x xs ih =>
    intro b h
    cases b with
    | nil => simp [goStrLt] at h
    | cons y ys =>
      rw [goStrLt_cons] at h ⊢
      by_cases h1 : x < y
      · rw [if_neg (show ¬ y < x by omega), if_pos h1]
      · by_cases h2 : y < x
        · rw [if_neg h1, if_pos h2] at h
          simp at h
        · rw [if_neg h1, if_neg h2] at h
          rw [if_neg h2, if_neg h1]
          exact ih ys h

/-- Two lists neither of which is byte-wise below the other are equal. -/
theorem goStrLt_conn : ∀ a b : List Nat, goStrLt a b = false → goStrLt b a = false → a = b := by
  intro a
  induction a with
  | nil =>
    intro b hab _
    cases b with
    | nil => rfl
    | cons y ys => simp [goStrLt] at hab
  | cons x xs ih =>
    intro b hab hba
    cases b with
    | nil => simp [goStrLt] at hba
    | cons y ys =>
      rw [goStrLt_cons] at hab hba
      by_cases h1 : x < y
      · rw [if_pos h1] at hab
        simp at hab
      · by_cases h2 : y < x
        · rw [if_pos h2] at hba
          simp at hba
        · have hxy : x = y := by omega
          subst hxy
          rw [if_neg h1, if_neg h1] at hab
          rw [if_neg h1, if_neg h1] at hba
          rw [ih ys hab hba]

/-- Byte-wise strict comparison is transitive. -/
theorem goStrLt_trans : ∀ a b c : List Nat,
    goStrLt a b = true → goStrLt b c = true → goStrLt a c = true := by
  intro a
  induction a with
  | nil =>
    intro b c hab hbc
    cases c with
    | nil =>
      cases b with
      | nil => simp [goStrLt] at hab
      | cons y ys => simp [goStrLt] at hbc
    | cons z zs => rfl
  | cons x xs ih =>
    intro b c hab hbc
    cases b with
    | nil => simp [goStrLt] at hab
    | cons y ys =>
      cases c with
      | nil => simp [goStrLt] at hbc
      | cons z zs =>
        rw [goStrLt_cons] at hab hbc ⊢
        have hxy : x < y ∨ (¬ x < y ∧ ¬ y < x ∧ goStrLt xs ys = true) := by
          by_cases h1 : x < y
          · exact Or.inl h1
          · by_cases h2 : y < x
            · rw [if_neg h1, if_pos h2] at hab
              simp at hab
            · rw [if_neg h1, if_neg h2] at hab
              exact Or.inr ⟨h1, h2, hab⟩
        have hyz : y < z ∨ (¬ y < z ∧ ¬ z < y ∧ goStrLt ys zs = true) := by
          by_cases h1 : y < z
          · exact Or.inl h1
          · by_cases h2 : z < y
            · rw [if_neg h1, if_pos h2] at hbc
              simp at hbc
            · rw [if_neg h1, if_neg h2] at hbc
              exact Or.inr ⟨h1, h2, hbc⟩
        rcases hxy with h1 | ⟨h1, h2, h3⟩
        · rcases hyz with h4 | ⟨h4, h5, h6⟩
          · rw [if_pos (show x < z by omega)]
          · rw [if_pos (show x < z by omega)]
        · rcases hyz with h4 | ⟨h4, h5, h6⟩
          · rw [if_pos (show x < z by omega)]
          · have hxz : x = z := by omega
            rw [if_neg (show ¬ x < z by omega), if_neg (show ¬ z < x by omega)]
            exact ih ys zs h3 h6

/-- The sort relation is total. -/
theorem nameLe_total : ∀ a b : List Nat × List Nat, nameLe a b ∨ nameLe b a := by
  intro a b
  unfold nameLe
  cases h : goStrLt b.1 a.1 with
  | false => exact Or.inl rfl
  | true => exact Or.inr (goStrLt_asymm b.1 a.1 h)

/-- The sort relation is transitive. -/
theorem nameLe_trans : ∀ a b c : List Nat × List Nat, nameLe a b → nameLe b c → nameLe a c := by
  intro a b c hab hbc
  unfold nameLe at hab hbc ⊢
  cases hca : goStrLt c.1 a.1 with
  | false => rfl
  | true =>
    exfalso
    cases hbcx : goStrLt b.1 c.1 with
    | true =>
      have := goStrLt_trans b.1 c.1 a.1 hbcx hca
      rw [this] at hab
      exact absurd hab (by simp)
    | false =>
      have hcb : c.1 = b.1 := goStrLt_conn c.1 b.1 hbc hbcx
      rw [hcb] at hca
      rw [hca] at hab
      exact absurd hab (by simp)

/-- Concatenating byte lists adds up their lengths. -/
theorem concatBytes_length : ∀ ls : List (List Nat),
    (concatBytes ls).length = (ls.map List.length).sum := by
  intro ls
  induction ls with
  | nil => rfl
  | cons l ls ih => simp [concatBytes, ih]

/-- A tree payload holding a single truncated entry, mode and name
correctly framed and fewer than twenty bytes after the NUL, makes the
hash slice run past the end of the buffer. -/
theorem decodeTreeEntries_truncated (m nm rest : List Nat)
    (hm0 : 0 ∉ m) (hm32 : 32 ∉ m) (hn0 : 0 ∉ nm) (hn32 : 32 ∉ nm)
    (v : Int) (hmode : atoi m = some v) (hr : rest.length < 20) :
    decodeTreeEntries (m ++ 32 :: (nm ++ 0 :: rest)) = .panicked := by
  have hshape : m ++ 32 :: (nm ++ 0 :: rest) = (m ++ 32 :: nm) ++ 0 :: rest := by
    simp [List.append_assoc]
  have h0pre : 0 ∉ (m ++ 32 :: nm) := by
    simp only [List.mem_append, List.mem_cons, not_or]
    exact ⟨hm0, by omega, hn0⟩
  have hidx : goIndex (m ++ 32 :: (nm ++ 0 :: rest)) 0 = some (m ++ 32 :: nm).length := by
    rw [hshape]
    exact goIndex_append 0 rest (m ++ 32 :: nm) h0pre
  have htake : (m ++ 32 :: (nm ++ 0 :: rest)).take (m ++ 32 :: nm).length = m ++ 32 :: nm := by
    rw [hshape]
    exact List.take_left (m ++ 32 :: nm) (0 :: rest)
  have hpmn : parseModeName ((m ++ 32 :: (nm ++ 0 :: rest)).take (m ++ 32 :: nm).length) =
      .ok (v, nm) := by
    rw [htake]
    exact parseModeName_ok m nm hm32 hn32 v hmode
  simp only [decodeTreeEntries, decodeTreeLoop, hidx, hpmn]
  rw [if_neg]
  simp only [List.length_append, List.length_cons]
  omega

/-- Claim C1: the claim says decodeTreeObjectContent consumes exactly
twenty hash bytes per entry and resumes at the byte right after them,
so that every entry decodes with exactly the encoded mode and name.
The loop instead re-slices twenty-two bytes past the NUL index, one
byte beyond the end of the hash, so every entry after the first loses
the leading byte of its mode: a payload encoding modes 40000 and
100644 decodes to modes 40000 and 644.  Names and hashes still come
out intact because the next NUL search re-synchronises.  This theorem
evaluates the decoder on such a two-entry payload, exhibiting the
mangled second mode. -/
theorem decodeTreeEntries_drops_byte_after_hash :
    decodeTreeEntries (strBytes ("40000 dir") ++ 0 ::
        (List.replicate 20 1 ++ (strBytes ("100644 f") ++ 0 :: List.replicate 20 2))) =
      .ok [⟨40000, strBytes ("dir"), List.replicate 20 1⟩,
           ⟨644, strBytes ("f"), List.replicate 20 2⟩] := by decide

/-- Claim C2, counterexample: on the buffer holding the single byte 98
(no NUL, no space) the decode panics in parseType instead of returning
an error, refuting the claim that a buffer without delimiters yields a
MalformedObject error. -/
theorem decodeObjectData_no_delims_concrete :
    decodeObjectData [98] = .panicked ∧ (decodeObjectData [98]).isErr = false :=
  ⟨rfl, rfl⟩

/-- Claim C2, amended: for every input buffer containing no NUL byte
and no space byte, the decode panics, parseType slicing with the -1
returned by the failed space search; no error value reaches the
caller and no truncated result is returned. -/
theorem decodeObjectData_no_delims_panics (data : List Nat)
    (_h0 : 0 ∉ data) (h32 : 32 ∉ data) :
    decodeObjectData data = .panicked := by
  have hidx : goIndex data 32 = none := goIndex_eq_none 32 data h32
  simp only [decodeObjectData, parseType, hidx]

/-- Witness for the amended claim C2 at the concrete two-byte buffer. -/
theorem decodeObjectData_no_delims_panics_witness :
    decodeObjectData [98, 108] = .panicked :=
  decodeObjectData_no_delims_panics [98, 108] (by decide) (by decide)

/-- Claim C3, counterexample: a tree payload whose final entry is
truncated to five hash bytes makes decodeTreeObjectContent panic; it
does not stop and return the entries decoded so far. -/
theorem decodeTreeObjectContent_truncated_concrete :
    decodeTreeObjectContent (strBytes ("100644 a") ++ 0 :: [1, 2, 3, 4, 5]) = .panicked ∧
    (decodeTreeObjectContent (strBytes ("100644 a") ++ 0 :: [1, 2, 3, 4, 5])).isOk = false :=
  ⟨rfl, rfl⟩

/-- Claim C3, amended: for every tree payload framed as one entry whose
mode and name are well formed but which carries fewer than twenty bytes
after its NUL, decodeTreeEntries panics on the out-of-range hash slice
rather than stopping with the entries decoded so far; the loop only
stops gracefully when at least twenty bytes follow a NUL, because the
hash slice is taken before the termination test. -/
theorem decodeTreeEntries_truncated_panics (m nm rest : List Nat)
    (hm0 : 0 ∉ m) (hm32 : 32 ∉ m) (hn0 : 0 ∉ nm) (hn32 : 32 ∉ nm)
    (v : Int) (hmode : atoi m = some v) (hr : rest.length < 20) :
    decodeTreeEntries (m ++ 32 :: (nm ++ 0 :: rest)) = .panicked ∧
    (decodeTreeEntries (m ++ 32 :: (nm ++ 0 :: rest))).isOk = false := by
  have h := decodeTreeEntries_truncated m nm rest hm0 hm32 hn0 hn32 v hmode hr
  exact ⟨h, by rw [h]; rfl⟩

/-- Witness for the amended claim C3 at a concrete truncated entry. -/
theorem decodeTreeEntries_truncated_panics_witness :
    decodeTreeEntries (strBytes ("100644") ++ 32 :: ([97] ++ 0 :: [1, 2, 3, 4, 5])) = .panicked ∧
    (decodeTreeEntries (strBytes ("100644") ++ 32 :: ([97] ++ 0 :: [1, 2, 3, 4, 5]))).isOk = false :=
  decodeTreeEntries_truncated_panics (strBytes ("100644")) [97] [1, 2, 3, 4, 5]
    (by decide) (by decide) (by decide) (by decide) 100644 (by decide) (by decide)

/-- Claim C4, counterexample: a buffer declaring size 5 over the
two-byte payload ab decodes successfully into an Object whose Size
field is 5 while its Content has length 2; no size check fails the
decode, refuting the claim that the size invariant is checked. -/
theorem decodeObjectData_size_mismatch_concrete :
    decodeObjectData (strBytes ("blob 5") ++ 0 :: strBytes ("ab")) =
      .ok ⟨TypeBlob, 5, strBytes ("ab")⟩ ∧
    (strBytes ("ab")).length = 2 :=
  ⟨by decide, rfl⟩

/-- Claim C4, amended: parseObject performs no consistency check
between the declared size and the payload length: for every declared
size n and payload p with n different from the length of p, the buffer
decodes successfully to an Object carrying Size n and Content p. -/
theorem decodeObjectData_no_size_check (n : Nat) (p : List Nat) (_hne : n ≠ p.length) :
    decodeObjectData (encodeHeader TypeBlob n ++ p) = .ok ⟨TypeBlob, (n : Int), p⟩ :=
  decodeObjectData_encodeHeader TypeBlob (by decide) n p

/-- Witness for the amended claim C4 at size 5 over a two-byte payload. -/
theorem decodeObjectData_no_size_check_witness :
    decodeObjectData (encodeHeader TypeBlob 5 ++ strBytes ("ab")) =
      .ok ⟨TypeBlob, ((5 : Nat) : Int), strBytes ("ab")⟩ :=
  decodeObjectData_no_size_check 5 (strBytes ("ab")) (by decide)

/-- Claim C5: decoding the concatenation of the encoded header for
kind k and length of p with the payload p itself returns exactly the
kind, the declared length and the unmodified payload, for both object
kinds and every byte sequence p, the empty sequence and sequences
containing spaces and NUL bytes included. -/
theorem codec_decode_encode_roundtrip (k : List Nat)
    (hk : k = TypeBlob ∨ k = TypeTree) (p : List Nat) :
    decodeObjectData (encodeHeader k p.length ++ p) = .ok ⟨k, (p.length : Int), p⟩ := by
  have h32 : 32 ∉ k := by
    rcases hk with h | h <;> subst h <;> decide
  exact decodeObjectData_encodeHeader k h32 p.length p

/-- Witness for claim C5 on a payload containing a NUL and a space. -/
theorem codec_decode_encode_roundtrip_witness :
    decodeObjectData (encodeHeader TypeBlob 3 ++ [0, 32, 5]) =
      .ok ⟨TypeBlob, ((3 : Nat) : Int), [0, 32, 5]⟩ :=
  codec_decode_encode_roundtrip TypeBlob (Or.inl rfl) [0, 32, 5]

/-- Claim C6: hashing a file whose contents are the six bytes of
hello with a trailing newline builds exactly the eleven encoded bytes
blob space 6 NUL hello newline, and their SHA-1 digest renders as the
well-known forty-character hex value. -/
theorem writeBlobObject_hello_vector :
    writeBlobEncoded (strBytes ("hello\n")) = strBytes ("blob 6") ++ 0 :: strBytes ("hello\n") ∧
    hexEncode (writeBlobObjectHash (strBytes ("hello\n"))) =
      strBytes ("ce013625030ba8dba906f756967f9e9ca394464a") :=
  ⟨by decide, by decide⟩

/-- Claim C7: for every directory listing, the entries of the
assembled tree payload are sorted by name in ascending byte-wise order
(the sorted list is ordered under the comparison sort.Slice uses and is
a permutation of the listing-order entries, so the listing order is
irrelevant); and on the concrete directory listing entries named b, a,
c in that order, the payload decodes to the names a, b, c. -/
theorem writeTreeObject_sorted_by_name :
    (∀ es : List DirEntry,
      List.Sorted nameLe (sortLines (treeLines es)) ∧
      (sortLines (treeLines es)).Perm (treeLines es)) ∧
    decodeTreeObjectContent (treePayload
      [DirEntry.file (strBytes ("b")) 420 [120],
       DirEntry.file (strBytes ("a")) 420 [121],
       DirEntry.file (strBytes ("c")) 420 [122]]) = .ok (strBytes ("a\nb\nc\n")) := by
  constructor
  · intro es
    haveI : IsTotal (List Nat × List Nat) nameLe := ⟨nameLe_total⟩
    haveI : IsTrans (List Nat × List Nat) nameLe := ⟨nameLe_trans⟩
    exact ⟨List.sorted_insertionSort nameLe (treeLines es),
           List.perm_insertionSort nameLe (treeLines es)⟩
  · decide

/-- Claim C8: both writers declare a header size equal to the byte
length of the payload that follows: the blob writer declares the
content length over the content itself, and the tree writer declares a
totalSize, summed over the unsorted lines, that equals the length of
the sorted concatenated payload; decoding each encoded object returns
exactly that size alongside the payload. -/
theorem write_declared_size_matches (c : List Nat) (es : List DirEntry) :
    decodeObjectData (writeBlobEncoded c) = .ok ⟨TypeBlob, (c.length : Int), c⟩ ∧
    totalSize es = (treePayload es).length ∧
    decodeObjectData (writeTreeObjectEncoded es) =
      .ok ⟨TypeTree, ((totalSize es : Nat) : Int), treePayload es⟩ := by
  refine ⟨?_, ?_, ?_⟩
  · exact decodeObjectData_encodeHeader TypeBlob (by decide) c.length c
  · have hperm := List.perm_insertionSort nameLe (treeLines es)
    have hmap := hperm.map (fun l : List Nat × List Nat => l.2.length)
    have hsum := List.Perm.sum_eq hmap
    rw [totalSize, treePayload, concatBytes_length, List.map_map, ← hsum]
    rfl
  · exact decodeObjectData_encodeHeader TypeTree (by decide) (totalSize es) (treePayload es)

/-- Claim C9: reading a well-formed forty-character hash whose derived
shard path has no backing file returns the open-failure error the
specification names ObjectNotFound; the model read is a pure function
of the store map, so the store is left unchanged by construction. -/
theorem parseObject_missing_object (inflate : List Nat → Option (List Nat))
    (fs : String → Option (List Nat)) (hash : String)
    (_hlen : hash.length = 40) (habsent : fs (getObjectPath hash) = none) :
    parseObject inflate fs hash = .err .openFile := by
  simp only [parseObject, habsent]

/-- Witness for claim C9 on an empty store and a fixed hex hash. -/
theorem parseObject_missing_object_witness :
    parseObject (fun _ => none) (fun _ => none)
      ("0123456789abcdef0123456789abcdef01234567") = .err .openFile :=
  parseObject_missing_object (fun _ => none) (fun _ => none)
    ("0123456789abcdef0123456789abcdef01234567") rfl rfl

/-- Claim C10: on the empty payload, the payload of a tree object for
an empty directory, the decoder does not return an empty entry list:
the NUL search fails on the first pass and the slice with index -1
panics, both in the entry loop and at the public function. -/
theorem decodeTreeObjectContent_empty_panics :
    decodeTreeEntries ([] : List Nat) = .panicked ∧
    decodeTreeObjectContent ([] : List Nat) = .panicked :=
  ⟨rfl, rfl⟩

end MyGit
